import Mathlib

/-!
Verification development for the chess position interpreter and one-ply
move selector (`src/chess/src/chess.c`).

The board is embedded as a total function `Nat → Nat → Char` over
row/column indices (row 0 = rank 8, column 0 = file a, `'.'` = empty);
the code only ever reads or writes cells with both indices below 8.
Machine `int` arithmetic is embedded as `Int` (no overflow occurs: all
scores are bounded well below 2^31).  Fallible operations return a
status component mirroring the C return codes.
-/

namespace Chess

/-- The board model: `bd row col` is the piece character at that cell,
`'.'` when empty.  Row 0 is rank 8 (top), column 0 is file a. -/
abbrev Board := Nat → Nat → Char

/-- Write a single cell of the board (models `board[r][c] = v`). -/
def setCell (bd : Board) (r c : Nat) (v : Char) : Board :=
  fun r' c' => if r' = r ∧ c' = c then v else bd r' c'

/-- The all-empty board (every cell `'.'`). -/
def emptyBoard : Board := fun _ _ => '.'

/-- Centipawn value of a piece character; positive for White (uppercase),
negative for Black (lowercase), 0 for anything else (`piece_value`). -/
def piece_value (p : Char) : Int :=
  if p = 'P' then 100 else if p = 'N' then 320 else if p = 'B' then 330
  else if p = 'R' then 500 else if p = 'Q' then 900 else if p = 'K' then 20000
  else if p = 'p' then -100 else if p = 'n' then -320 else if p = 'b' then -330
  else if p = 'r' then -500 else if p = 'q' then -900 else if p = 'k' then -20000
  else 0

/-- The fixed `centre_bonus` piece-square table from `evaluate`. -/
def centre_bonus_table : List (List Int) :=
  [[0, 0, 0, 0, 0, 0, 0, 0],
   [0, 0, 0, 0, 0, 0, 0, 0],
   [0, 0, 1, 2, 2, 1, 0, 0],
   [0, 0, 2, 3, 3, 2, 0, 0],
   [0, 0, 2, 3, 3, 2, 0, 0],
   [0, 0, 1, 2, 2, 1, 0, 0],
   [0, 0, 0, 0, 0, 0, 0, 0],
   [0, 0, 0, 0, 0, 0, 0, 0]]

/-- Entry of the centre-bonus table at `(r, c)` (0 outside the table). -/
def centre_bonus (r c : Nat) : Int := (centre_bonus_table.getD r []).getD c 0

/-- Total contribution of one cell to the static evaluation: material
value, minor-piece centre bonus, and pawn-advancement bonus, exactly as
accumulated by the loop body of `evaluate` (lines 151-175). -/
def cellScore (piece : Char) (r c : Nat) : Int :=
  if piece = '.' then 0
  else
    piece_value piece
    + (if piece = 'N' ∨ piece = 'B' then centre_bonus r c * 5
       else if piece = 'n' ∨ piece = 'b' then -(centre_bonus r c * 5) else 0)
    + (if piece = 'P' then (7 - (r : Int)) * 5
       else if piece = 'p' then -((r : Int) * 5) else 0)

/-- Static evaluation (`evaluate`): sum of the per-cell contributions
over the 8×8 grid. -/
def evaluate (bd : Board) : Int :=
  ∑ r ∈ Finset.range 8, ∑ c ∈ Finset.range 8, cellScore (bd r c) r c

/-- The piece-placement loop of `parse_fen` (lines 96-110): consumes
characters until end of input or a space, returning the updated board
and the unconsumed remainder.  Writes are guarded by `row < 8 ∧ col < 8`. -/
def parse_place : List Char → Nat → Nat → Board → Board × List Char
  | [], _, _, bd => (bd, [])
  | ch :: rest, row, col, bd =>
    if ch = ' ' then (bd, ch :: rest)
    else if ch = '/' then parse_place rest (row + 1) 0 bd
    else if '1' ≤ ch ∧ ch ≤ '8' then
      parse_place rest row (col + (ch.toNat - '0'.toNat)) bd
    else
      parse_place rest row (col + 1)
        (if row < 8 ∧ col < 8 then setCell bd row col ch else bd)

/-- `parse_fen`: decode the placement field into a board, then read the
active-colour character (the character after at most one space; the NUL
character when the string is exhausted).  Always returns status 1. -/
def parse_fen (fen : List Char) : Int × Board × Char :=
  let pr := parse_place fen 0 0 emptyBoard
  let rest := match pr.2 with
    | ' ' :: t => t
    | t => t
  (1, pr.1, match rest with | ch :: _ => ch | [] => Char.ofNat 0)

/-- Board decoded from a FEN string. -/
def boardOf (fen : List Char) : Board := (parse_fen fen).2.1

/-- Side-to-move character decoded from a FEN string. -/
def sideOf (fen : List Char) : Char := (parse_fen fen).2.2

/-- The eight knight move offsets of `find_piece` (`knight_dr`/`knight_dc`). -/
def knight_offsets : List (Int × Int) :=
  [(-2, -1), (-2, 1), (-1, -2), (-1, 2), (1, -2), (1, 2), (2, -1), (2, 1)]

/-- Rook ray directions (`rdr`/`rdc`). -/
def rook_dirs : List (Int × Int) := [(-1, 0), (1, 0), (0, -1), (0, 1)]

/-- Bishop ray directions, in the order generated by the nested loops. -/
def bishop_dirs : List (Int × Int) := [(-1, -1), (-1, 1), (1, -1), (1, 1)]

/-- Queen ray directions (`qdr`/`qdc`). -/
def queen_dirs : List (Int × Int) := [(-1, -1), (-1, 0), (-1, 1), (0, -1), (0, 1), (1, -1), (1, 0), (1, 1)]

/-- One sliding-piece ray walk (the inner `while` loops of `find_piece`):
starting at `(sr, sc)` and stepping by `(stepR, stepC)`, report whether
the target `(tr, tc)` is reached before leaving the board or hitting an
occupied square.  The fuel bound 16 exceeds the at most 8 in-board steps
any ray can take, so it never cuts the walk short. -/
def rayHits (bd : Board) (stepR stepC tr tc : Int) : Int → Int → Nat → Bool
  | _, _, 0 => false
  | sr, sc, fuel + 1 =>
    if 0 ≤ sr ∧ sr < 8 ∧ 0 ≤ sc ∧ sc < 8 then
      if sr = tr ∧ sc = tc then true
      else if bd sr.toNat sc.toNat ≠ '.' then false
      else rayHits bd stepR stepC tr tc (sr + stepR) (sc + stepC) fuel
    else false

/-- White-pawn reachability test of `find_piece` (lines 222-235):
forward push (one step, or two from row 6 through an empty row 5) onto an
empty destination, or a one-step diagonal (capture / en passant). -/
def pawn_reach_w (bd : Board) (r c dr dc : Nat) : Bool :=
  decide ((c = dc ∧ bd dr dc = '.' ∧ (r = dr + 1 ∨ (r = 6 ∧ dr = 4 ∧ bd 5 c = '.')))
          ∨ (r = dr + 1 ∧ (c = dc + 1 ∨ c + 1 = dc)))

/-- Black-pawn reachability test of `find_piece` (lines 236-247). -/
def pawn_reach_b (bd : Board) (r c dr dc : Nat) : Bool :=
  decide ((c = dc ∧ bd dr dc = '.' ∧ (dr = r + 1 ∨ (r = 1 ∧ dr = 3 ∧ bd 2 c = '.')))
          ∨ (dr = r + 1 ∧ (c = dc + 1 ∨ c + 1 = dc)))

/-- The per-candidate reachability switch of `find_piece` (lines 219-333):
given the candidate square `(r, c)` and destination `(dr, dc)`, decide
whether the piece's movement rule reaches the destination. -/
def reaches (bd : Board) (piece : Char) (r c dr dc : Nat) : Bool :=
  match piece.toUpper with
  | 'P' => if piece.isUpper then pawn_reach_w bd r c dr dc else pawn_reach_b bd r c dr dc
  | 'N' => knight_offsets.any fun o =>
      decide ((r : Int) + o.1 = (dr : Int) ∧ (c : Int) + o.2 = (dc : Int))
  | 'B' => bishop_dirs.any fun o =>
      rayHits bd o.1 o.2 (dr : Int) (dc : Int) ((r : Int) + o.1) ((c : Int) + o.2) 16
  | 'R' => rook_dirs.any fun o =>
      rayHits bd o.1 o.2 (dr : Int) (dc : Int) ((r : Int) + o.1) ((c : Int) + o.2) 16
  | 'Q' => queen_dirs.any fun o =>
      rayHits bd o.1 o.2 (dr : Int) (dc : Int) ((r : Int) + o.1) ((c : Int) + o.2) 16
  | 'K' => decide (((r : Int) - (dr : Int)).natAbs ≤ 1 ∧ ((c : Int) - (dc : Int)).natAbs ≤ 1)
  | _ => false

/-- Disambiguation-hint filter: a candidate coordinate passes when the
hint is absent or matches it. -/
def hintOk (h : Option Nat) (v : Nat) : Bool :=
  match h with
  | some x => decide (v = x)
  | none => true

/-- Full per-square candidate test of the `find_piece` scan: occupant
matches the requested piece, both hints pass, and the movement rule
reaches the destination. -/
def cand (bd : Board) (piece : Char) (dr dc : Nat) (hr hc : Option Nat) (r c : Nat) : Bool :=
  decide (bd r c = piece) && hintOk hr r && hintOk hc c && reaches bd piece r c dr dc

/-- The 64 squares in the scan order of `find_piece`: row-major,
row 0 → 7 outer, column 0 → 7 inner. -/
def squares : List (Nat × Nat) :=
  (List.range 8).flatMap fun r => (List.range 8).map fun c => (r, c)

/-- `find_piece`: first square in row-major scan order whose occupant
matches the piece, satisfies the hints, and reaches the destination;
`none` when no square qualifies. -/
def find_piece (bd : Board) (piece : Char) (dr dc : Nat) (hr hc : Option Nat) :
    Option (Nat × Nat) :=
  squares.find? fun q => cand bd piece dr dc hr hc q.1 q.2

/-- Strip trailing `'+'` / `'#'` characters (lines 402-404). -/
def stripSuffix (l : List Char) : List Char :=
  (l.reverse.dropWhile fun ch => decide (ch = '+' ∨ ch = '#')).reverse

/-- The fixed board mutation for castling (lines 373-391): clear the
king's and rook's home squares on the side's back rank and write the
castled king and rook, unconditionally. -/
def castled (bd : Board) (side : Char) (kingside : Bool) : Board :=
  let row := if side = 'w' then 7 else 0
  let king := if side = 'w' then 'K' else 'k'
  let rook := if side = 'w' then 'R' else 'r'
  if kingside then
    setCell (setCell (setCell (setCell bd row 4 '.') row 7 '.') row 6 king) row 5 rook
  else
    setCell (setCell (setCell (setCell bd row 4 '.') row 0 '.') row 2 king) row 3 rook

/-- The final mutation phase of `apply_move` (lines 465-483): en-passant
removal when a pawn moves diagonally onto an empty square, clearing the
source, and writing the moved (or promoted) piece to the destination. -/
def exec_move (bd : Board) (piece side : Char) (promote : Option Char)
    (sr sc dr dc : Nat) : Board :=
  let bd1 := if piece.toUpper = 'P' ∧ sc ≠ dc ∧ bd dr dc = '.'
             then setCell bd sr dc '.' else bd
  let bd2 := setCell bd1 sr sc '.'
  match promote with
  | some pch => setCell bd2 dr dc (if side = 'w' then pch.toUpper else pch.toLower)
  | none => setCell bd2 dr dc piece

/-- The kingside castling tokens recognised verbatim. -/
def oO : List Char := ['O', '-', 'O']

/-- Kingside castling token with check suffix. -/
def oOplus : List Char := ['O', '-', 'O', '+']

/-- Kingside castling token with mate suffix. -/
def oOhash : List Char := ['O', '-', 'O', '#']

/-- The queenside castling token. -/
def oOO : List Char := ['O', '-', 'O', '-', 'O']

/-- Queenside castling token with check suffix. -/
def oOOplus : List Char := ['O', '-', 'O', '-', 'O', '+']

/-- Queenside castling token with mate suffix. -/
def oOOhash : List Char := ['O', '-', 'O', '-', 'O', '#']

/-- One step of the disambiguation scan (lines 446-455): `'x'` is
skipped, a file letter sets the column hint, a rank digit sets the row
hint, anything else is ignored. -/
def hintStep (h : Option Nat × Option Nat) (ch : Char) : Option Nat × Option Nat :=
  if ch = 'x' then h
  else if 'a' ≤ ch ∧ ch ≤ 'h' then (h.1, some (ch.toNat - 'a'.toNat))
  else if '1' ≤ ch ∧ ch ≤ '8' then (some ('8'.toNat - ch.toNat), h.2)
  else h

/-- `apply_move`: apply one algebraic-notation token for `side` to the
board.  Returns the C status (1 success, 0 failure) paired with the
resulting board (unchanged on failure). -/
def apply_move (bd : Board) (move : List Char) (side : Char) : Int × Board :=
  if move = oO ∨ move = oOplus ∨ move = oOhash then
    (1, castled bd side true)
  else if move = oOO ∨ move = oOOplus ∨ move = oOOhash then
    (1, castled bd side false)
  else
    let buf0 := stripSuffix (move.take 15)
    let hasPromo := 4 ≤ buf0.length ∧ buf0.getD (buf0.length - 2) ' ' = '='
    let promote : Option Char := if hasPromo then some (buf0.getLastD ' ') else none
    let buf := if hasPromo then buf0.take (buf0.length - 2) else buf0
    let named : Bool := match buf with
      | ch :: _ => decide (ch = 'N' ∨ ch = 'B' ∨ ch = 'R' ∨ ch = 'Q' ∨ ch = 'K')
      | [] => false
    let piece := if named then (if side = 'w' then buf.headD ' ' else (buf.headD ' ').toLower)
                 else (if side = 'w' then 'P' else 'p')
    let rest := if named then buf.tail else buf
    if rest.length < 2 then (0, bd)
    else
      let chCol := buf.getD (buf.length - 2) ' '
      let chRow := buf.getD (buf.length - 1) ' '
      let dcI : Int := (chCol.toNat : Int) - ('a'.toNat : Int)
      let drI : Int := ('8'.toNat : Int) - (chRow.toNat : Int)
      if drI < 0 ∨ 8 ≤ drI ∨ dcI < 0 ∨ 8 ≤ dcI then (0, bd)
      else
        let dr := drI.toNat
        let dc := dcI.toNat
        let hints := (rest.take (rest.length - 2)).foldl hintStep (none, none)
        match find_piece bd piece dr dc hints.1 hints.2 with
        | none => (0, bd)
        | some (sr, sc) => (1, exec_move bd piece side promote sr sc dr dc)

/-- `strtok`-style tokenisation: the maximal nonempty runs of non-space
characters. -/
def splitTokens (l : List Char) : List (List Char) :=
  (l.splitOn ' ').filter fun t => decide (t ≠ [])

/-- Token list seen by `choose_move`: the moves string truncated to the
4095-character buffer, split on spaces, capped at 256 tokens of at most
15 characters each. -/
def toksOf (moves : List Char) : List (List Char) :=
  ((splitTokens (moves.take 4095)).take 256).map fun t => t.take 15

/-- Initial `best_score` sentinel of `choose_move` (line 538). -/
def sentinel (side : Char) : Int := if side = 'w' then -9999999 else 9999999

/-- The strict comparison of `choose_move` (lines 554-564): `score`
strictly improves on `best` for the given side. -/
def better (side : Char) (score best : Int) : Bool :=
  if side = 'w' then decide (best < score) else decide (score < best)

/-- The candidate-evaluation loop of `choose_move` (lines 541-565): walk
the token list at running index `i`, keeping `(best_idx, best_score)`,
skipping tokens that fail to apply and updating only on strict
improvement. -/
def select_loop (bd : Board) (side : Char) : List (List Char) → Nat → Nat × Int → Nat × Int
  | [], _, st => st
  | m :: rest, i, st =>
    let res := apply_move bd m side
    if res.1 = 1 then
      let score := evaluate res.2
      if better side score st.2 then select_loop bd side rest (i + 1) (i, score)
      else select_loop bd side rest (i + 1) st
    else select_loop bd side rest (i + 1) st

/-- `choose_move`: decode the FEN, tokenise the move list, and return the
index selected by the evaluation loop (0 for an empty list). -/
def choose_move (fen moves : List Char) (timeout : Int) : Nat :=
  let pr := parse_fen fen
  let toks := toksOf moves
  if toks.length = 0 then 0
  else (select_loop pr.2.1 pr.2.2 toks 0 (0, sentinel pr.2.2)).1

/-- Whether `apply_move` succeeds on this token. -/
def applyOk (bd : Board) (side : Char) (m : List Char) : Bool :=
  decide ((apply_move bd m side).1 = 1)

/-- Evaluation of the board produced by applying this token. -/
def scoreOf (bd : Board) (side : Char) (m : List Char) : Int :=
  evaluate (apply_move bd m side).2

/-- Direct enumeration of a FEN placement field as piece triples
`(row, col, piece)`: `'/'` advances the rank and resets the file, a
digit 1-8 skips empty cells, any other character places a piece at the
current cell; scanning stops at a space.  Written from the spec's
description of the placement grammar. -/
def fenTriples : List Char → Nat → Nat → List (Nat × Nat × Char)
  | [], _, _ => []
  | ch :: rest, row, col =>
    if ch = ' ' then []
    else if ch = '/' then fenTriples rest (row + 1) 0
    else if '1' ≤ ch ∧ ch ≤ '8' then fenTriples rest row (col + (ch.toNat - '0'.toNat))
    else (row, col, ch) :: fenTriples rest row (col + 1)

/-- The piece triples directly enumerated from a FEN string. -/
def placements (fen : List Char) : List (Nat × Nat × Char) := fenTriples fen 0 0

/-- The last piece placed at `(r, c)` by a triple list, if any. -/
def lastPlace (ts : List (Nat × Nat × Char)) (r c : Nat) : Option Char :=
  ts.foldl (fun acc t => if t.1 = r ∧ t.2.1 = c then some t.2.2 else acc) none

/-- Signed material value of one cell, as the spec states it: Pawn 100,
Knight 320, Bishop 330, Rook 500, Queen 900, King 20000, added for White
pieces and subtracted for Black pieces. -/
def material_spec (ch : Char) : Int :=
  if ch = 'P' then 100 else if ch = 'N' then 320 else if ch = 'B' then 330
  else if ch = 'R' then 500 else if ch = 'Q' then 900 else if ch = 'K' then 20000
  else if ch = 'p' then -100 else if ch = 'n' then -320 else if ch = 'b' then -330
  else if ch = 'r' then -500 else if ch = 'q' then -900 else if ch = 'k' then -20000
  else 0

/-- Minor-piece centrality term of one cell, as the spec states it: 5
times the centre-bonus table entry, added for White knights/bishops and
subtracted for Black knights/bishops. -/
def centre_spec (ch : Char) (r c : Nat) : Int :=
  if ch = 'N' ∨ ch = 'B' then 5 * centre_bonus r c
  else if ch = 'n' ∨ ch = 'b' then -(5 * centre_bonus r c) else 0

/-- Pawn-advancement term of one cell, as the spec states it: White
pawns add 5×(7 − row), Black pawns subtract 5×row. -/
def pawnadv_spec (ch : Char) (r : Nat) : Int :=
  if ch = 'P' then 5 * (7 - (r : Int)) else if ch = 'p' then -(5 * (r : Int)) else 0

/-- The evaluation formula as the spec describes it: the sum over all
squares of the signed material, minor-piece centrality, and
pawn-advancement terms. -/
def evaluate_spec (bd : Board) : Int :=
  ∑ r ∈ Finset.range 8, ∑ c ∈ Finset.range 8,
    (material_spec (bd r c) + centre_spec (bd r c) r c + pawnadv_spec (bd r c) r)

/-! ### Basic lemmas -/

/-- Reading a cell other than the one written is unchanged. -/
theorem setCell_ne (bd : Board) (r c : Nat) (v : Char) (r' c' : Nat)
    (h : ¬(r' = r ∧ c' = c)) : setCell bd r c v r' c' = bd r' c' := by
  unfold setCell
  exact if_neg h

/-- The placement loop never writes a cell outside the 8×8 grid. -/
theorem parse_place_oor (s : List Char) : ∀ (row col : Nat) (bd : Board) (r c : Nat),
    8 ≤ r ∨ 8 ≤ c → (parse_place s row col bd).1 r c = bd r c := by
  induction s with
  | nil => intro row col bd r c _; rfl
  | cons ch rest ih =>
    intro row col bd r c h
    unfold parse_place
    split_ifs with h1 h2 h3 h4
    · rfl
    · exact ih _ _ _ _ _ h
    · exact ih _ _ _ _ _ h
    · rw [ih _ _ _ _ _ h]
      exact setCell_ne bd row col ch r c (by omega)
    · exact ih _ _ _ _ _ h

/-- Either `apply_move` succeeds (status 1), or it returns status 0 with
the board unchanged. -/
theorem apply_move_cases (bd : Board) (move : List Char) (side : Char) :
    (apply_move bd move side).1 = 1 ∨ apply_move bd move side = (0, bd) := by
  unfold apply_move
  repeat' first | split | dsimp only
  all_goals first | (left; rfl) | (right; rfl)

/-- The centre-bonus table entry is always between 0 and 3. -/
theorem centre_bonus_bounds (r c : Nat) : 0 ≤ centre_bonus r c ∧ centre_bonus r c ≤ 3 := by
  have hin : ∀ r' < 8, ∀ c' < 8, 0 ≤ centre_bonus r' c' ∧ centre_bonus r' c' ≤ 3 := by decide
  rcases Nat.lt_or_ge r 8 with hr | hr
  · rcases Nat.lt_or_ge c 8 with hc | hc
    · exact hin r hr c hc
    · have hlen : (centre_bonus_table.getD r []).length ≤ c := by
        have h8 : ∀ r' < 8, (centre_bonus_table.getD r' []).length = 8 := by decide
        rw [h8 r hr]
        exact hc
      unfold centre_bonus
      rw [List.getD_eq_default _ _ hlen]
      omega
  · have hlen : centre_bonus_table.length ≤ r := by
      have h8 : centre_bonus_table.length = 8 := by decide
      omega
    unfold centre_bonus
    rw [List.getD_eq_default _ _ hlen]
    rw [List.getD_eq_default _ _ (Nat.zero_le c)]
    omega

/-- Per-cell agreement between the code's evaluation contribution and the
spec's three-term decomposition. -/
theorem cellScore_eq (ch : Char) (r c : Nat) :
    cellScore ch r c = material_spec ch + centre_spec ch r c + pawnadv_spec ch r := by
  by_cases h0 : ch = '.'
  · subst h0; rfl
  by_cases h1 : ch = 'P'
  · subst h1
    simp +decide only [cellScore, material_spec, centre_spec, pawnadv_spec, piece_value,
      if_true, if_false]
    try ring
  by_cases h2 : ch = 'N'
  · subst h2
    simp +decide only [cellScore, material_spec, centre_spec, pawnadv_spec, piece_value,
      if_true, if_false]
    try ring
  by_cases h3 : ch = 'B'
  · subst h3
    simp +decide only [cellScore, material_spec, centre_spec, pawnadv_spec, piece_value,
      if_true, if_false]
    try ring
  by_cases h4 : ch = 'R'
  · subst h4
    simp +decide only [cellScore, material_spec, centre_spec, pawnadv_spec, piece_value,
      if_true, if_false]
    try ring
  by_cases h5 : ch = 'Q'
  · subst h5
    simp +decide only [cellScore, material_spec, centre_spec, pawnadv_spec, piece_value,
      if_true, if_false]
    try ring
  by_cases h6 : ch = 'K'
  · subst h6
    simp +decide only [cellScore, material_spec, centre_spec, pawnadv_spec, piece_value,
      if_true, if_false]
    try ring
  by_cases h7 : ch = 'p'
  · subst h7
    simp +decide only [cellScore, material_spec, centre_spec, pawnadv_spec, piece_value,
      if_true, if_false]
    try ring
  by_cases h8 : ch = 'n'
  · subst h8
    simp +decide only [cellScore, material_spec, centre_spec, pawnadv_spec, piece_value,
      if_true, if_false]
    try ring
  by_cases h9 : ch = 'b'
  · subst h9
    simp +decide only [cellScore, material_spec, centre_spec, pawnadv_spec, piece_value,
      if_true, if_false]
    try ring
  by_cases h10 : ch = 'r'
  · subst h10
    simp +decide only [cellScore, material_spec, centre_spec, pawnadv_spec, piece_value,
      if_true, if_false]
    try ring
  by_cases h11 : ch = 'q'
  · subst h11
    simp +decide only [cellScore, material_spec, centre_spec, pawnadv_spec, piece_value,
      if_true, if_false]
    try ring
  by_cases h12 : ch = 'k'
  · subst h12
    simp +decide only [cellScore, material_spec, centre_spec, pawnadv_spec, piece_value,
      if_true, if_false]
    try ring
  simp [cellScore, material_spec, centre_spec, pawnadv_spec, piece_value,
    h0, h1, h2, h3, h4, h5, h6, h7, h8, h9, h10, h11, h12]

/-- Per-cell bound on the evaluation contribution (rows on the board). -/
theorem cellScore_bounds (ch : Char) (r c : Nat) (hr : r < 8) :
    -20100 ≤ cellScore ch r c ∧ cellScore ch r c ≤ 20100 := by
  have hb := centre_bonus_bounds r c
  by_cases h0 : ch = '.'
  · subst h0
    have hz : cellScore '.' r c = 0 := rfl
    omega
  by_cases h1 : ch = 'P'
  · subst h1
    simp +decide only [cellScore, piece_value, if_true, if_false]
    try omega
  by_cases h2 : ch = 'N'
  · subst h2
    simp +decide only [cellScore, piece_value, if_true, if_false]
    try omega
  by_cases h3 : ch = 'B'
  · subst h3
    simp +decide only [cellScore, piece_value, if_true, if_false]
    try omega
  by_cases h4 : ch = 'R'
  · subst h4
    simp +decide only [cellScore, piece_value, if_true, if_false]
    try omega
  by_cases h5 : ch = 'Q'
  · subst h5
    simp +decide only [cellScore, piece_value, if_true, if_false]
    try omega
  by_cases h6 : ch = 'K'
  · subst h6
    simp +decide only [cellScore, piece_value, if_true, if_false]
    try omega
  by_cases h7 : ch = 'p'
  · subst h7
    simp +decide only [cellScore, piece_value, if_true, if_false]
    try omega
  by_cases h8 : ch = 'n'
  · subst h8
    simp +decide only [cellScore, piece_value, if_true, if_false]
    try omega
  by_cases h9 : ch = 'b'
  · subst h9
    simp +decide only [cellScore, piece_value, if_true, if_false]
    try omega
  by_cases h10 : ch = 'r'
  · subst h10
    simp +decide only [cellScore, piece_value, if_true, if_false]
    try omega
  by_cases h11 : ch = 'q'
  · subst h11
    simp +decide only [cellScore, piece_value, if_true, if_false]
    try omega
  by_cases h12 : ch = 'k'
  · subst h12
    simp +decide only [cellScore, piece_value, if_true, if_false]
    try omega
  have hz : cellScore ch r c = 0 := by
    simp [cellScore, piece_value, h0, h1, h2, h3, h4, h5, h6, h7, h8, h9, h10, h11, h12]
  omega

/-- The static evaluation is bounded strictly inside the sentinel values
`±9999999` of `choose_move`, on every board. -/
theorem evaluate_bounds (bd : Board) : -9999999 < evaluate bd ∧ evaluate bd < 9999999 := by
  have inner_lo : ∀ r ∈ Finset.range 8,
      (-160800 : Int) ≤ ∑ c ∈ Finset.range 8, cellScore (bd r c) r c := by
    intro r hr
    have h := Finset.sum_le_sum fun c (_ : c ∈ Finset.range 8) =>
      (cellScore_bounds (bd r c) r c (Finset.mem_range.mp hr)).1
    simpa using h
  have inner_hi : ∀ r ∈ Finset.range 8,
      (∑ c ∈ Finset.range 8, cellScore (bd r c) r c) ≤ 160800 := by
    intro r hr
    have h := Finset.sum_le_sum fun c (_ : c ∈ Finset.range 8) =>
      (cellScore_bounds (bd r c) r c (Finset.mem_range.mp hr)).2
    simpa using h
  have lo := Finset.sum_le_sum inner_lo
  have hi := Finset.sum_le_sum inner_hi
  norm_num [Finset.sum_const, Finset.card_range] at lo hi
  unfold evaluate
  omega

/-- Every evaluation score strictly improves on the initial sentinel of
`choose_move`, for either side. -/
theorem better_sentinel (side : Char) (bd : Board) :
    better side (evaluate bd) (sentinel side) = true := by
  have h := evaluate_bounds bd
  unfold better sentinel
  split_ifs
  · simp only [decide_eq_true_eq]
    exact h.1
  · simp only [decide_eq_true_eq]
    exact h.2

/-! ### Claim theorems -/

/-- Claim C7: whenever `apply_move` reports failure (status 0) — the
token is too short to contain a destination, the destination is out of
range, or `find_piece` finds no source square — the board it returns is
exactly the input board: no cell is mutated on any failing path. -/
theorem apply_move_failure_preserves_board (bd : Board) (move : List Char) (side : Char)
    (h : (apply_move bd move side).1 = 0) : (apply_move bd move side).2 = bd := by
  rcases apply_move_cases bd move side with h1 | h1
  · rw [h1] at h; exact absurd h (by norm_num)
  · rw [h1]

/-- Witness for C7: the too-short token `"e"`, the out-of-range token
`"e9"`, and the sourceless token `"Qd4"` all fail on the en-passant test
board and leave it unchanged. -/
theorem apply_move_failure_preserves_board_witness :
    ((apply_move emptyBoard ("e".toList) 'w').1 = 0
      ∧ (apply_move emptyBoard ("e".toList) 'w').2 = emptyBoard)
    ∧ ((apply_move emptyBoard ("e9".toList) 'w').1 = 0
      ∧ (apply_move emptyBoard ("e9".toList) 'w').2 = emptyBoard)
    ∧ ((apply_move emptyBoard ("Qd4".toList) 'w').1 = 0
      ∧ (apply_move emptyBoard ("Qd4".toList) 'w').2 = emptyBoard) :=
  ⟨⟨by decide, apply_move_failure_preserves_board emptyBoard ("e".toList) 'w' (by decide)⟩,
   ⟨by decide, apply_move_failure_preserves_board emptyBoard ("e9".toList) 'w' (by decide)⟩,
   ⟨by decide, apply_move_failure_preserves_board emptyBoard ("Qd4".toList) 'w' (by decide)⟩⟩

/-- Claim C10: castling tokens (with optional `'+'`/`'#'` suffix) always
succeed without inspecting the board: for either side they clear the
king's and rook's home squares on the side's back rank and write the
king and rook to the fixed castled squares (files g/f kingside, files
c/d queenside), leaving every other cell unchanged — on any board. -/
theorem apply_move_castling_unconditional (bd : Board) :
    (apply_move bd oO 'w'
      = (1, setCell (setCell (setCell (setCell bd 7 4 '.') 7 7 '.') 7 6 'K') 7 5 'R'))
    ∧ (apply_move bd oOplus 'w'
      = (1, setCell (setCell (setCell (setCell bd 7 4 '.') 7 7 '.') 7 6 'K') 7 5 'R'))
    ∧ (apply_move bd oOhash 'w'
      = (1, setCell (setCell (setCell (setCell bd 7 4 '.') 7 7 '.') 7 6 'K') 7 5 'R'))
    ∧ (apply_move bd oOO 'w'
      = (1, setCell (setCell (setCell (setCell bd 7 4 '.') 7 0 '.') 7 2 'K') 7 3 'R'))
    ∧ (apply_move bd oOOplus 'w'
      = (1, setCell (setCell (setCell (setCell bd 7 4 '.') 7 0 '.') 7 2 'K') 7 3 'R'))
    ∧ (apply_move bd oOOhash 'w'
      = (1, setCell (setCell (setCell (setCell bd 7 4 '.') 7 0 '.') 7 2 'K') 7 3 'R'))
    ∧ (apply_move bd oO 'b'
      = (1, setCell (setCell (setCell (setCell bd 0 4 '.') 0 7 '.') 0 6 'k') 0 5 'r'))
    ∧ (apply_move bd oOplus 'b'
      = (1, setCell (setCell (setCell (setCell bd 0 4 '.') 0 7 '.') 0 6 'k') 0 5 'r'))
    ∧ (apply_move bd oOhash 'b'
      = (1, setCell (setCell (setCell (setCell bd 0 4 '.') 0 7 '.') 0 6 'k') 0 5 'r'))
    ∧ (apply_move bd oOO 'b'
      = (1, setCell (setCell (setCell (setCell bd 0 4 '.') 0 0 '.') 0 2 'k') 0 3 'r'))
    ∧ (apply_move bd oOOplus 'b'
      = (1, setCell (setCell (setCell (setCell bd 0 4 '.') 0 0 '.') 0 2 'k') 0 3 'r'))
    ∧ (apply_move bd oOOhash 'b'
      = (1, setCell (setCell (setCell (setCell bd 0 4 '.') 0 0 '.') 0 2 'k') 0 3 'r')) :=
  ⟨rfl, rfl, rfl, rfl, rfl, rfl, rfl, rfl, rfl, rfl, rfl, rfl⟩

/-- Claim C3: the static evaluation is exactly the sum, over occupied
squares, of the signed material values (Pawn 100, Knight 320, Bishop
330, Rook 500, Queen 900, King 20000; White added, Black subtracted),
plus 5 times the centre-bonus table entry for knights and bishops (White
added, Black subtracted), plus the pawn-advancement term 5×(7 − row) for
White pawns and −5×row for Black pawns. -/
theorem evaluate_decomposition (bd : Board) : evaluate bd = evaluate_spec bd := by
  unfold evaluate evaluate_spec
  exact Finset.sum_congr rfl fun r _ => Finset.sum_congr rfl fun c _ => cellScore_eq (bd r c) r c

/-- Unfolding `lastPlace` over a cons cell: the tail's answer wins when
present, otherwise the head places if it matches the cell. -/
theorem lastPlace_cons (t : Nat × Nat × Char) (ts : List (Nat × Nat × Char)) (r c : Nat) :
    lastPlace (t :: ts) r c =
      (match lastPlace ts r c with
       | some x => some x
       | none => if t.1 = r ∧ t.2.1 = c then some t.2.2 else none) := by
  have key : ∀ (l : List (Nat × Nat × Char)) (init : Option Char),
      l.foldl (fun acc u => if u.1 = r ∧ u.2.1 = c then some u.2.2 else acc) init
        = (match l.foldl (fun acc u => if u.1 = r ∧ u.2.1 = c then some u.2.2 else acc) none with
           | some x => some x
           | none => init) := by
    intro l
    induction l with
    | nil => intro init; rfl
    | cons u l ih =>
      intro init
      simp only [List.foldl_cons]
      rw [ih (if u.1 = r ∧ u.2.1 = c then some u.2.2 else init),
        ih (if u.1 = r ∧ u.2.1 = c then some u.2.2 else none)]
      rcases hfl : l.foldl (fun acc u => if u.1 = r ∧ u.2.1 = c then some u.2.2 else acc) none
          with _ | x
      · by_cases hm : u.1 = r ∧ u.2.1 = c <;> simp [hm, hfl]
      · simp [hfl]
  unfold lastPlace
  simp only [List.foldl_cons]
  rw [key ts (if t.1 = r ∧ t.2.1 = c then some t.2.2 else none)]

/-- If no triple targets the cell, `lastPlace` is empty there. -/
theorem lastPlace_eq_none (ts : List (Nat × Nat × Char)) (r c : Nat)
    (h : ∀ t ∈ ts, ¬(t.1 = r ∧ t.2.1 = c)) : lastPlace ts r c = none := by
  induction ts with
  | nil => rfl
  | cons u ts ih =>
    rw [lastPlace_cons]
    rw [ih fun t ht => h t (List.mem_cons_of_mem u ht)]
    exact if_neg (h u (List.mem_cons_self u ts))

/-- With pairwise-distinct positions, `lastPlace` recovers each triple. -/
theorem lastPlace_of_mem (ts : List (Nat × Nat × Char)) (t : Nat × Nat × Char)
    (hmem : t ∈ ts) (hnd : (ts.map fun u => (u.1, u.2.1)).Nodup) :
    lastPlace ts t.1 t.2.1 = some t.2.2 := by
  induction ts with
  | nil => exact absurd hmem (List.not_mem_nil t)
  | cons u ts ih =>
    simp only [List.map_cons, List.nodup_cons] at hnd
    rcases List.mem_cons.mp hmem with h | h
    · subst h
      rw [lastPlace_cons]
      have hnone : lastPlace ts t.1 t.2.1 = none := by
        refine lastPlace_eq_none ts t.1 t.2.1 fun v hv hvc => hnd.1 ?_
        have : (v.1, v.2.1) = (t.1, t.2.1) := by
          rw [hvc.1, hvc.2]
        rw [← this]
        exact List.mem_map_of_mem _ hv
      rw [hnone]
      exact if_pos ⟨rfl, rfl⟩
    · rw [lastPlace_cons, ih h hnd.2]

/-- Cell-level description of the placement loop: an on-board cell ends
up holding the last triple placed there, or keeps its prior content. -/
theorem parse_place_cell (s : List Char) : ∀ (row col : Nat) (bd : Board) (r c : Nat),
    r < 8 → c < 8 →
    (parse_place s row col bd).1 r c
      = (lastPlace (fenTriples s row col) r c).getD (bd r c) := by
  induction s with
  | nil => intros; rfl
  | cons ch rest ih =>
    intro row col bd r c hr hc
    unfold parse_place fenTriples
    split_ifs with h1 h2 h3 h4
    · rfl
    · exact ih _ _ _ _ _ hr hc
    · exact ih _ _ _ _ _ hr hc
    · rw [ih _ _ _ _ _ hr hc, lastPlace_cons]
      rcases hfl : lastPlace (fenTriples rest row (col + 1)) r c with _ | x
      · simp only [Option.getD_none]
        by_cases hm : row = r ∧ col = c
        · obtain ⟨hm1, hm2⟩ := hm
          subst hm1; subst hm2
          simp [setCell]
        · have hcond : ¬((row, col, ch).1 = r ∧ (row, col, ch).2.1 = c) := hm
          rw [if_neg hcond]
          exact setCell_ne bd row col ch r c (by tauto)
      · simp
    · rw [ih _ _ _ _ _ hr hc, lastPlace_cons]
      rcases hfl : lastPlace (fenTriples rest row (col + 1)) r c with _ | x
      · simp only [Option.getD_none]
        by_cases hm : row = r ∧ col = c
        · exact absurd ⟨hm.1 ▸ hr, hm.2 ▸ hc⟩ h4
        · have hcond : ¬((row, col, ch).1 = r ∧ (row, col, ch).2.1 = c) := hm
          rw [if_neg hcond]
          rfl
      · simp

/-- Claim C4: for a valid FEN placement (all directly-enumerated triples
on the board, with distinct positions), the decoded board holds exactly
the piece at each enumerated triple's square, and every square not named
by a triple is empty. -/
theorem parse_fen_roundtrip (fen : List Char)
    (hin : ∀ t ∈ placements fen, t.1 < 8 ∧ t.2.1 < 8)
    (hnd : ((placements fen).map fun t => (t.1, t.2.1)).Nodup) :
    (∀ t ∈ placements fen, boardOf fen t.1 t.2.1 = t.2.2)
    ∧ (∀ r < 8, ∀ c < 8,
        (∀ t ∈ placements fen, ¬(t.1 = r ∧ t.2.1 = c)) → boardOf fen r c = '.') := by
  have hb : boardOf fen = (parse_place fen 0 0 emptyBoard).1 := rfl
  constructor
  · intro t ht
    rw [hb, parse_place_cell fen 0 0 emptyBoard t.1 t.2.1 (hin t ht).1 (hin t ht).2]
    have hlp := lastPlace_of_mem (placements fen) t ht hnd
    unfold placements at hlp
    rw [hlp]
    rfl
  · intro r hr c hc hnone
    rw [hb, parse_place_cell fen 0 0 emptyBoard r c hr hc]
    have hlp := lastPlace_eq_none (placements fen) r c hnone
    unfold placements at hlp
    rw [hlp]
    rfl

/-- Witness for C4 on the FEN `"8/8/4P3/8/8/8/8/K7 w"` (a white pawn on
e6 and a white king on a1): both conclusions hold with the hypotheses
checked by evaluation. -/
theorem parse_fen_roundtrip_witness :
    (∀ t ∈ placements ("8/8/4P3/8/8/8/8/K7 w".toList),
        boardOf ("8/8/4P3/8/8/8/8/K7 w".toList) t.1 t.2.1 = t.2.2)
    ∧ (∀ r < 8, ∀ c < 8,
        (∀ t ∈ placements ("8/8/4P3/8/8/8/8/K7 w".toList), ¬(t.1 = r ∧ t.2.1 = c)) →
          boardOf ("8/8/4P3/8/8/8/8/K7 w".toList) r c = '.') :=
  parse_fen_roundtrip ("8/8/4P3/8/8/8/8/K7 w".toList) (by decide) (by decide)

/-- First-match characterisation of `List.find?` by positions, using
out-of-range-tolerant indexing. -/
theorem find?_getD_iff (p : Nat × Nat → Bool) (l : List (Nat × Nat)) (a : Nat × Nat) :
    l.find? p = some a ↔
      ∃ i, i < l.length ∧ l.getD i (0, 0) = a ∧ p a = true
        ∧ ∀ j, j < i → p (l.getD j (0, 0)) = false := by
  induction l with
  | nil =>
    constructor
    · intro h
      exact absurd h (by simp [List.find?])
    · rintro ⟨i, hi, _⟩
      exact absurd hi (by simp)
  | cons x xs ih =>
    rcases hpx : p x with _ | _
    · rw [List.find?_cons_of_neg _ (by simp [hpx]), ih]
      constructor
      · rintro ⟨i, hi, hget, hpa, hb⟩
        refine ⟨i + 1, by simpa using hi, by simpa using hget, hpa, ?_⟩
        intro j hj
        cases j with
        | zero => simpa using hpx
        | succ j' => simpa using hb j' (Nat.lt_of_succ_lt_succ hj)
      · rintro ⟨i, hi, hget, hpa, hb⟩
        cases i with
        | zero =>
          rw [List.getD_cons_zero] at hget
          rw [hget] at hpx
          rw [hpa] at hpx
          exact absurd hpx (by simp)
        | succ i' =>
          refine ⟨i', Nat.lt_of_succ_lt_succ (by simpa using hi), by simpa using hget, hpa, ?_⟩
          intro j hj
          simpa using hb (j + 1) (Nat.succ_lt_succ hj)
    · rw [List.find?_cons_of_pos _ hpx]
      constructor
      · intro h
        have hxa : x = a := Option.some.inj h
        subst hxa
        exact ⟨0, by simp, by simp, hpx, fun j hj => absurd hj (by omega)⟩
      · rintro ⟨i, hi, hget, hpa, hb⟩
        cases i with
        | zero =>
          rw [List.getD_cons_zero] at hget
          rw [hget]
        | succ i' =>
          have := hb 0 (Nat.succ_pos i')
          rw [List.getD_cons_zero] at this
          rw [hpx] at this
          exact absurd this (by simp)

/-- The scan list has 64 entries. -/
theorem squares_length : squares.length = 64 := by decide

/-- Entry `i` of the scan list is `(i / 8, i % 8)`. -/
theorem squares_getD : ∀ i < 64, squares.getD i (0, 0) = (i / 8, i % 8) := by decide

/-- A board with two white knights, on b1 (row 7, column 1) and f3
(row 5, column 5), both of which reach d2 (row 6, column 3). -/
def twoKnightsBoard : Board := fun r c =>
  if r = 7 ∧ c = 1 then 'N' else if r = 5 ∧ c = 5 then 'N' else '.'

/-- Claim C5: `find_piece` returns exactly the first square in row-major
order (row 0 → 7 outer, column 0 → 7 inner) whose occupant matches the
requested piece, satisfies the hints, and reaches the destination by its
movement rule; in particular, on the two-knight board the file hint of
"Nbd2" selects the b-file knight while no hint selects the lower
row-major knight on f3. -/
theorem find_piece_first_rowmajor :
    (∀ (bd : Board) (piece : Char) (dr dc : Nat) (hr hc : Option Nat) (r c : Nat),
      find_piece bd piece dr dc hr hc = some (r, c) ↔
        (r < 8 ∧ c < 8 ∧ cand bd piece dr dc hr hc r c = true
          ∧ ∀ r' c', r' < 8 → c' < 8 → (r' < r ∨ (r' = r ∧ c' < c)) →
              cand bd piece dr dc hr hc r' c' = false))
    ∧ find_piece twoKnightsBoard 'N' 6 3 none (some 1) = some (7, 1)
    ∧ find_piece twoKnightsBoard 'N' 6 3 none none = some (5, 5) := by
  refine ⟨?_, by decide, by decide⟩
  intro bd piece dr dc hr hc r c
  unfold find_piece
  rw [find?_getD_iff]
  constructor
  · rintro ⟨i, hi, hget, hpa, hb⟩
    rw [squares_length] at hi
    rw [squares_getD i hi] at hget
    cases hget
    refine ⟨by omega, by omega, hpa, ?_⟩
    intro r' c' hr' hc' hlt
    have hj : 8 * r' + c' < i := by omega
    have hjb := hb (8 * r' + c') hj
    rw [squares_getD _ (by omega)] at hjb
    have e1 : (8 * r' + c') / 8 = r' := by omega
    have e2 : (8 * r' + c') % 8 = c' := by omega
    rw [e1, e2] at hjb
    exact hjb
  · rintro ⟨hr8, hc8, hpa, hb⟩
    refine ⟨8 * r + c, ?_, ?_, hpa, ?_⟩
    · rw [squares_length]; omega
    · rw [squares_getD _ (by omega)]
      have e1 : (8 * r + c) / 8 = r := by omega
      have e2 : (8 * r + c) % 8 = c := by omega
      rw [e1, e2]
    · intro j hj
      have hjlt : j < 64 := by omega
      rw [squares_getD j hjlt]
      exact hb (j / 8) (j % 8) (by omega) (by omega) (by omega)

/-- Witness for C5: the no-hint instance of the characterisation on the
two-knight board, with the right-hand side checked concretely. -/
theorem find_piece_first_rowmajor_witness :
    5 < 8 ∧ 5 < 8 ∧ cand twoKnightsBoard 'N' 6 3 none none 5 5 = true
      ∧ ∀ r' c', r' < 8 → c' < 8 → (r' < 5 ∨ (r' = 5 ∧ c' < 5)) →
          cand twoKnightsBoard 'N' 6 3 none none r' c' = false :=
  (find_piece_first_rowmajor.1 twoKnightsBoard 'N' 6 3 none none 5 5).mp (by decide)

/-- Board for the spec's en-passant scenario: a white pawn on e5
(row 3, column 4) and a black pawn just advanced to d5 (row 3, column 3). -/
def epBoard : Board := fun r c =>
  if r = 3 ∧ c = 4 then 'P' else if r = 3 ∧ c = 3 then 'p' else '.'

/-- Claim C6: when a pawn moves to a destination on a different file
while the destination square is empty, `apply_move`'s mutation phase
clears the square on the source's rank and the destination's file (the
captured pawn), clears the source, and places the moving pawn on the
destination — and nothing else; concretely, "exd6" on the e5/d5 board
empties e5 and d5 and puts the white pawn on d6. -/
theorem apply_move_en_passant :
    (∀ (bd : Board) (piece side : Char) (sr sc dr dc : Nat),
      piece.toUpper = 'P' → sc ≠ dc → bd dr dc = '.' →
      exec_move bd piece side none sr sc dr dc
        = setCell (setCell (setCell bd sr dc '.') sr sc '.') dr dc piece)
    ∧ ((apply_move epBoard ("exd6".toList) 'w').1 = 1
       ∧ (apply_move epBoard ("exd6".toList) 'w').2 3 4 = '.'
       ∧ (apply_move epBoard ("exd6".toList) 'w').2 3 3 = '.'
       ∧ (apply_move epBoard ("exd6".toList) 'w').2 2 3 = 'P') := by
  constructor
  · intro bd piece side sr sc dr dc h1 h2 h3
    simp only [exec_move]
    rw [if_pos ⟨h1, h2, h3⟩]
  · exact ⟨by decide, by decide, by decide, by decide⟩

/-- Witness for C6: the general en-passant mutation shape instantiated
on the e5/d5 board. -/
theorem apply_move_en_passant_witness :
    exec_move epBoard 'P' 'w' none 3 4 2 3
      = setCell (setCell (setCell epBoard 3 3 '.') 3 4 '.') 2 3 'P' :=
  apply_move_en_passant.1 epBoard 'P' 'w' 3 4 2 3 (by decide) (by decide) (by decide)

/-- No score strictly improves on itself. -/
theorem better_self (side : Char) (s : Int) : better side s s = false := by
  unfold better
  split_ifs <;> simp

/-- Strict improvement is transitive. -/
theorem better_trans (side : Char) {a b c : Int}
    (h1 : better side a b = true) (h2 : better side b c = true) :
    better side a c = true := by
  unfold better at *
  split_ifs at * <;> simp only [decide_eq_true_eq] at * <;> omega

/-- Strict improvement is asymmetric. -/
theorem better_asym (side : Char) {a b : Int} (h : better side a b = true) :
    better side b a = false := by
  unfold better at *
  split_ifs at * <;> simp only [decide_eq_true_eq, decide_eq_false_iff_not] at * <;> omega

/-- A strict improvement on `b` also strictly improves on anything that
fails to improve on `b`. -/
theorem better_chain (side : Char) {a b c : Int}
    (h1 : better side c b = true) (h2 : better side a b = false) :
    better side c a = true := by
  unfold better at *
  split_ifs at * <;> simp only [decide_eq_true_eq, decide_eq_false_iff_not] at * <;> omega

/-- Unfolding one step of the selection loop. -/
theorem select_loop_cons (bd : Board) (side : Char) (m : List Char)
    (rest : List (List Char)) (i bi : Nat) (bs : Int) :
    select_loop bd side (m :: rest) i (bi, bs)
      = if applyOk bd side m = true then
          (if better side (scoreOf bd side m) bs = true
           then select_loop bd side rest (i + 1) (i, scoreOf bd side m)
           else select_loop bd side rest (i + 1) (bi, bs))
        else select_loop bd side rest (i + 1) (bi, bs) := by
  have hL : select_loop bd side (m :: rest) i (bi, bs)
      = if (apply_move bd m side).1 = 1 then
          (if better side (evaluate (apply_move bd m side).2) bs = true
           then select_loop bd side rest (i + 1) (i, evaluate (apply_move bd m side).2)
           else select_loop bd side rest (i + 1) (bi, bs))
        else select_loop bd side rest (i + 1) (bi, bs) := rfl
  rw [hL]
  by_cases h : (apply_move bd m side).1 = 1
  · rw [if_pos h, if_pos (show applyOk bd side m = true from decide_eq_true h)]
    rfl
  · rw [if_neg h, if_neg (show ¬applyOk bd side m = true from fun hc => h (of_decide_eq_true hc))]

/-- Invariant of the selection loop: starting from accumulator
`(bi, bs)` with `bi ≤ i`, either no token strictly improved on `bs` and
the accumulator is returned, or the loop returns the first token index
achieving the best strictly-improving score. -/
theorem select_loop_spec (bd : Board) (side : Char) (ms : List (List Char)) :
    ∀ (i bi : Nat) (bs : Int), bi ≤ i →
    (select_loop bd side ms i (bi, bs) = (bi, bs)
      ∧ ∀ j, j < ms.length → applyOk bd side (ms.getD j []) = true →
          better side (scoreOf bd side (ms.getD j [])) bs = false)
    ∨ (∃ j, j < ms.length
        ∧ select_loop bd side ms i (bi, bs) = (i + j, scoreOf bd side (ms.getD j []))
        ∧ applyOk bd side (ms.getD j []) = true
        ∧ better side (scoreOf bd side (ms.getD j [])) bs = true
        ∧ (∀ j', j' < ms.length → applyOk bd side (ms.getD j' []) = true →
            better side (scoreOf bd side (ms.getD j' []))
              (scoreOf bd side (ms.getD j [])) = false)
        ∧ (∀ j', j' < j → applyOk bd side (ms.getD j' []) = true →
            better side (scoreOf bd side (ms.getD j []))
              (scoreOf bd side (ms.getD j' [])) = true)) := by
  induction ms with
  | nil =>
    intro i bi bs _
    left
    exact ⟨rfl, fun j hj _ => absurd hj (by simp)⟩
  | cons m rest ih =>
    intro i bi bs hbi
    by_cases hok : applyOk bd side m = true
    · by_cases hbet : better side (scoreOf bd side m) bs = true
      · rw [select_loop_cons, if_pos hok, if_pos hbet]
        rcases ih (i + 1) i (scoreOf bd side m) (by omega) with
          ⟨heq, hall⟩ | ⟨j, hj, heq, hokj, hbetj, hopt, hearly⟩
        · right
          refine ⟨0, by simp, ?_, by simpa using hok, by simpa using hbet, ?_, ?_⟩
          · rw [heq]
            simp
          · intro j' hj' hokj'
            cases j' with
            | zero => simpa using better_self side (scoreOf bd side m)
            | succ jj =>
              have := hall jj (by simpa using hj') (by simpa using hokj')
              simpa using this
          · intro j' hj' _
            exact absurd hj' (by omega)
        · right
          refine ⟨j + 1, by simpa using hj, ?_, by simpa using hokj, ?_, ?_, ?_⟩
          · rw [heq]
            have harith : i + 1 + j = i + (j + 1) := by omega
            rw [harith]
            simp
          · simpa using better_trans side hbetj hbet
          · intro j' hj' hokj'
            cases j' with
            | zero => simpa using better_asym side hbetj
            | succ jj =>
              have := hopt jj (by simpa using hj') (by simpa using hokj')
              simpa using this
          · intro j' hj' hokj'
            cases j' with
            | zero => simpa using hbetj
            | succ jj =>
              have := hearly jj (by omega) (by simpa using hokj')
              simpa using this
      · have hrec : select_loop bd side (m :: rest) i (bi, bs)
            = select_loop bd side rest (i + 1) (bi, bs) := by
          rw [select_loop_cons, if_pos hok, if_neg hbet]
        have hbetf : better side (scoreOf bd side m) bs = false := by
          simpa using hbet
        rcases ih (i + 1) bi bs (by omega) with
          ⟨heq, hall⟩ | ⟨j, hj, heq, hokj, hbetj, hopt, hearly⟩
        · left
          refine ⟨by rw [hrec, heq], ?_⟩
          intro j' hj' hokj'
          cases j' with
          | zero => simpa using hbetf
          | succ jj =>
            have := hall jj (by simpa using hj') (by simpa using hokj')
            simpa using this
        · right
          refine ⟨j + 1, by simpa using hj, ?_, by simpa using hokj, by simpa using hbetj,
            ?_, ?_⟩
          · rw [hrec, heq]
            have harith : i + 1 + j = i + (j + 1) := by omega
            rw [harith]
            simp
          · intro j' hj' hokj'
            cases j' with
            | zero => simpa using better_asym side (better_chain side hbetj hbetf)
            | succ jj =>
              have := hopt jj (by simpa using hj') (by simpa using hokj')
              simpa using this
          · intro j' hj' hokj'
            cases j' with
            | zero => simpa using better_chain side hbetj hbetf
            | succ jj =>
              have := hearly jj (by omega) (by simpa using hokj')
              simpa using this
    · have hrec : select_loop bd side (m :: rest) i (bi, bs)
          = select_loop bd side rest (i + 1) (bi, bs) := by
        rw [select_loop_cons, if_neg hok]
      rcases ih (i + 1) bi bs (by omega) with
        ⟨heq, hall⟩ | ⟨j, hj, heq, hokj, hbetj, hopt, hearly⟩
      · left
        refine ⟨by rw [hrec, heq], ?_⟩
        intro j' hj' hokj'
        cases j' with
        | zero => exact absurd (by simpa using hokj') hok
        | succ jj =>
          have := hall jj (by simpa using hj') (by simpa using hokj')
          simpa using this
      · right
        refine ⟨j + 1, by simpa using hj, ?_, by simpa using hokj, by simpa using hbetj,
          ?_, ?_⟩
        · rw [hrec, heq]
          have harith : i + 1 + j = i + (j + 1) := by omega
          rw [harith]
          simp
        · intro j' hj' hokj'
          cases j' with
          | zero => exact absurd (by simpa using hokj') hok
          | succ jj =>
            have := hopt jj (by simpa using hj') (by simpa using hokj')
            simpa using this
        · intro j' hj' hokj'
          cases j' with
          | zero => exact absurd (by simpa using hokj') hok
          | succ jj =>
            have := hearly jj (by omega) (by simpa using hokj')
            simpa using this

/-- `choose_move` reduces to the selection loop on a nonempty token list. -/
theorem choose_move_eq_loop (fen moves : List Char) (timeout : Int)
    (h : toksOf moves ≠ []) :
    choose_move fen moves timeout
      = (select_loop (boardOf fen) (sideOf fen) (toksOf moves) 0
          (0, sentinel (sideOf fen))).1 := by
  unfold choose_move
  dsimp only
  rw [if_neg (by simpa using h)]
  rfl

/-- Claim C1: if any token applies, `choose_move` returns the index of
an applicable token whose evaluation score no other applicable token
strictly beats for the side to move, and every applicable token at an
earlier index scores strictly worse — so among distinct scores the
strictly better one wins, and ties keep the earliest-seen index. -/
theorem choose_move_selects_best (fen moves : List Char) (timeout : Int) (j : Nat)
    (hj : j < (toksOf moves).length)
    (hok : applyOk (boardOf fen) (sideOf fen) ((toksOf moves).getD j []) = true) :
    ∃ k, k < (toksOf moves).length
      ∧ choose_move fen moves timeout = k
      ∧ applyOk (boardOf fen) (sideOf fen) ((toksOf moves).getD k []) = true
      ∧ (∀ j', j' < (toksOf moves).length →
          applyOk (boardOf fen) (sideOf fen) ((toksOf moves).getD j' []) = true →
          better (sideOf fen)
            (scoreOf (boardOf fen) (sideOf fen) ((toksOf moves).getD j' []))
            (scoreOf (boardOf fen) (sideOf fen) ((toksOf moves).getD k [])) = false)
      ∧ (∀ j', j' < k →
          applyOk (boardOf fen) (sideOf fen) ((toksOf moves).getD j' []) = true →
          better (sideOf fen)
            (scoreOf (boardOf fen) (sideOf fen) ((toksOf moves).getD k []))
            (scoreOf (boardOf fen) (sideOf fen) ((toksOf moves).getD j' [])) = true) := by
  have hne : toksOf moves ≠ [] := by
    intro h
    rw [h] at hj
    exact absurd hj (by simp)
  have hcm := choose_move_eq_loop fen moves timeout hne
  rcases select_loop_spec (boardOf fen) (sideOf fen) (toksOf moves) 0 0
      (sentinel (sideOf fen)) (Nat.le_refl 0) with
    ⟨_, hall⟩ | ⟨k, hk, heq, hokk, _, hopt, hearly⟩
  · have hbs : better (sideOf fen)
        (scoreOf (boardOf fen) (sideOf fen) ((toksOf moves).getD j []))
        (sentinel (sideOf fen)) = true :=
      better_sentinel (sideOf fen) (apply_move (boardOf fen) ((toksOf moves).getD j []) (sideOf fen)).2
    rw [hall j hj hok] at hbs
    exact absurd hbs (by simp)
  · refine ⟨k, hk, ?_, hokk, hopt, hearly⟩
    rw [hcm, heq]
    simp

/-- Witness for C1 on the board with a lone white king on a1 and the
move list "Kb1 Ka2": the selector returns an optimal applicable index. -/
theorem choose_move_selects_best_witness :
    ∃ k, k < (toksOf ("Kb1 Ka2".toList)).length
      ∧ choose_move ("8/8/8/8/8/8/8/K7 w".toList) ("Kb1 Ka2".toList) 0 = k
      ∧ applyOk (boardOf ("8/8/8/8/8/8/8/K7 w".toList)) (sideOf ("8/8/8/8/8/8/8/K7 w".toList))
          ((toksOf ("Kb1 Ka2".toList)).getD k []) = true
      ∧ (∀ j', j' < (toksOf ("Kb1 Ka2".toList)).length →
          applyOk (boardOf ("8/8/8/8/8/8/8/K7 w".toList)) (sideOf ("8/8/8/8/8/8/8/K7 w".toList))
            ((toksOf ("Kb1 Ka2".toList)).getD j' []) = true →
          better (sideOf ("8/8/8/8/8/8/8/K7 w".toList))
            (scoreOf (boardOf ("8/8/8/8/8/8/8/K7 w".toList)) (sideOf ("8/8/8/8/8/8/8/K7 w".toList))
              ((toksOf ("Kb1 Ka2".toList)).getD j' []))
            (scoreOf (boardOf ("8/8/8/8/8/8/8/K7 w".toList)) (sideOf ("8/8/8/8/8/8/8/K7 w".toList))
              ((toksOf ("Kb1 Ka2".toList)).getD k [])) = false)
      ∧ (∀ j', j' < k →
          applyOk (boardOf ("8/8/8/8/8/8/8/K7 w".toList)) (sideOf ("8/8/8/8/8/8/8/K7 w".toList))
            ((toksOf ("Kb1 Ka2".toList)).getD j' []) = true →
          better (sideOf ("8/8/8/8/8/8/8/K7 w".toList))
            (scoreOf (boardOf ("8/8/8/8/8/8/8/K7 w".toList)) (sideOf ("8/8/8/8/8/8/8/K7 w".toList))
              ((toksOf ("Kb1 Ka2".toList)).getD k []))
            (scoreOf (boardOf ("8/8/8/8/8/8/8/K7 w".toList)) (sideOf ("8/8/8/8/8/8/8/K7 w".toList))
              ((toksOf ("Kb1 Ka2".toList)).getD j' [])) = true) :=
  choose_move_selects_best ("8/8/8/8/8/8/8/K7 w".toList) ("Kb1 Ka2".toList) 0 0
    (by decide) (by decide)

/-- Claim C2: a failing token is never the selected index unless every
token fails, in which case (as for an empty move list) index 0 is
returned; this rests on every successfully applied token's evaluation
strictly beating the initial sentinel score for the side to move. -/
theorem choose_move_skips_failures (fen moves : List Char) (timeout : Int) :
    (toksOf moves = [] → choose_move fen moves timeout = 0)
    ∧ ((∀ j, j < (toksOf moves).length →
          applyOk (boardOf fen) (sideOf fen) ((toksOf moves).getD j []) = false) →
        choose_move fen moves timeout = 0)
    ∧ (∀ j, j < (toksOf moves).length →
        applyOk (boardOf fen) (sideOf fen) ((toksOf moves).getD j []) = true →
        applyOk (boardOf fen) (sideOf fen)
          ((toksOf moves).getD (choose_move fen moves timeout) []) = true)
    ∧ (∀ bd : Board, better (sideOf fen) (evaluate bd) (sentinel (sideOf fen)) = true) := by
  have hempty : toksOf moves = [] → choose_move fen moves timeout = 0 := by
    intro h
    unfold choose_move
    dsimp only
    rw [if_pos (by simpa using congrArg List.length h)]
  refine ⟨hempty, ?_, ?_, fun bd => better_sentinel (sideOf fen) bd⟩
  · intro hfail
    by_cases hne : toksOf moves = []
    · exact hempty hne
    · have hcm := choose_move_eq_loop fen moves timeout hne
      rcases select_loop_spec (boardOf fen) (sideOf fen) (toksOf moves) 0 0
          (sentinel (sideOf fen)) (Nat.le_refl 0) with
        ⟨heq, _⟩ | ⟨k, hk, _, hokk, _, _, _⟩
      · rw [hcm, heq]
      · rw [hfail k hk] at hokk
        exact absurd hokk (by simp)
  · intro j hj hok
    have hne : toksOf moves ≠ [] := by
      intro h
      rw [h] at hj
      exact absurd hj (by simp)
    have hcm := choose_move_eq_loop fen moves timeout hne
    rcases select_loop_spec (boardOf fen) (sideOf fen) (toksOf moves) 0 0
        (sentinel (sideOf fen)) (Nat.le_refl 0) with
      ⟨_, hall⟩ | ⟨k, hk, heq, hokk, _, _, _⟩
    · have hbs : better (sideOf fen)
          (scoreOf (boardOf fen) (sideOf fen) ((toksOf moves).getD j []))
          (sentinel (sideOf fen)) = true :=
        better_sentinel (sideOf fen)
          (apply_move (boardOf fen) ((toksOf moves).getD j []) (sideOf fen)).2
      rw [hall j hj hok] at hbs
      exact absurd hbs (by simp)
    · have : choose_move fen moves timeout = k := by
        rw [hcm, heq]
        simp
      rw [this]
      exact hokk

/-- Witness for C2: the empty move list returns 0, and a list of two
unapplicable tokens ("Zz9 Qd4" on a lone-king board) returns 0. -/
theorem choose_move_skips_failures_witness :
    choose_move ("8/8/8/8/8/8/8/K7 w".toList) ([] : List Char) 0 = 0
    ∧ choose_move ("8/8/8/8/8/8/8/K7 w".toList) ("Zz9 Qd4".toList) 0 = 0 :=
  ⟨(choose_move_skips_failures ("8/8/8/8/8/8/8/K7 w".toList) ([] : List Char) 0).1 (by decide),
   (choose_move_skips_failures ("8/8/8/8/8/8/8/K7 w".toList) ("Zz9 Qd4".toList) 0).2.1
     (by decide)⟩

/-- A board holding a single white king on e4 (row 4, column 4). -/
def kingOnlyBoard : Board := fun r c => if r = 4 ∧ c = 4 then 'K' else '.'

/-- Counterexample to claim C8 as stated: with the destination square
e4 occupied by the white king itself, the Piece Locator accepts the
king's own square — a source at Chebyshev distance zero — and returns
it, because the code tests `abs(...) <= 1`, not `= 1`. -/
theorem king_reach_zero_distance_cex :
    find_piece kingOnlyBoard 'K' 4 4 none none = some (4, 4)
    ∧ reaches kingOnlyBoard 'K' 4 4 4 4 = true := by
  constructor
  · decide
  · decide

/-- Claim C8 (amended): the Piece Locator's reachability test for a king
accepts a candidate source square exactly when its Chebyshev distance to
the destination is at most one — the 8 adjacent squares or the
destination square itself. -/
theorem king_reach_chebyshev_le_one (bd : Board) (r c dr dc : Nat) :
    reaches bd 'K' r c dr dc = true ↔
      max ((r : Int) - (dr : Int)).natAbs ((c : Int) - (dc : Int)).natAbs ≤ 1 := by
  have h : reaches bd 'K' r c dr dc
      = decide (((r : Int) - (dr : Int)).natAbs ≤ 1 ∧ ((c : Int) - (dc : Int)).natAbs ≤ 1) := rfl
  rw [h, decide_eq_true_iff]
  omega

/-- Witness for C8's amended theorem: a king on e1 reaches d1 (distance
one) and "reaches" e1 itself (distance zero), but not c1. -/
theorem king_reach_chebyshev_le_one_witness :
    (reaches emptyBoard 'K' 7 4 7 3 = true)
    ∧ (reaches emptyBoard 'K' 7 4 7 4 = true)
    ∧ (reaches emptyBoard 'K' 7 4 7 2 = false) :=
  ⟨(king_reach_chebyshev_le_one emptyBoard 7 4 7 3).mpr (by decide),
   (king_reach_chebyshev_le_one emptyBoard 7 4 7 4).mpr (by decide),
   by decide⟩

/-- Claim C9: `parse_fen` is total and always reports success (status 1)
on every input, including malformed or truncated FEN; placements whose
computed position lies outside the 8×8 grid are silently discarded (an
extra ninth rank leaves the board empty), and a string with no character
after the placement field yields the NUL character as the side to move
instead of failing. -/
theorem parse_fen_total_safe :
    (∀ fen : List Char, (parse_fen fen).1 = 1)
    ∧ (∀ (fen : List Char) (r c : Nat), 8 ≤ r ∨ 8 ≤ c → boardOf fen r c = '.')
    ∧ (∀ r < 8, ∀ c < 8, boardOf ("8/8/8/8/8/8/8/8/K".toList) r c = '.')
    ∧ (parse_fen ("8/8/8/8/8/8/8/8".toList)).1 = 1
    ∧ sideOf ("8/8/8/8/8/8/8/8".toList) = Char.ofNat 0 := by
  refine ⟨fun _ => rfl, ?_, by decide, rfl, by decide⟩
  intro fen r c h
  exact parse_place_oor fen 0 0 emptyBoard r c h

/-- Witness for C9: a row-9 and a column-9 cell of any decoded board are
empty, and the discarded ninth-rank king leaves a1 empty. -/
theorem parse_fen_total_safe_witness :
    boardOf ("K7 w".toList) 9 0 = '.'
    ∧ boardOf ("K7 w".toList) 0 9 = '.'
    ∧ boardOf ("8/8/8/8/8/8/8/8/K".toList) 0 0 = '.' :=
  ⟨parse_fen_total_safe.2.1 ("K7 w".toList) 9 0 (Or.inl (by omega)),
   parse_fen_total_safe.2.1 ("K7 w".toList) 0 9 (Or.inr (by omega)),
   parse_fen_total_safe.2.2.1 0 (by omega) 0 (by omega)⟩

end Chess
